import Mathlib

/-!
Verification development for the income-report PDF splitter.

The source program is embedded shallowly:

* Page texts are `List Char` (Python `str`).
* The two regular expressions of `src/identifier.py`
  (`_CNPJ_RE = \b(\d{2}[.\s]?\d{3}[.\s]?\d{3}[/\s]?\d{4}[-\s]?\d{2})\b` and
  `_CPF_RE  = \b(\d{3}[.\s]?\d{3}[.\s]?\d{3}[-\s]?\d{2})\b`) are embedded as a
  deterministic matcher.  Determinism is faithful to Python's backtracking
  engine because every optional separator class (`[.\s]`, `[/\s]`, `[-\s]`)
  is disjoint from `\d`: the greedy optional either must consume (next char
  in the class, hence not a digit) or must not (next char not in the class),
  so no choice point ever has two viable branches.  `\w` is modelled as
  ASCII alphanumeric or underscore.
* The grouping pass of `src/pdf_processor.py` works on an insertion-ordered
  association list, the standard model of a Python `dict`.
* Filesystem and external libraries (fitz / pypdf) are abstracted: a
  document is its list of page texts, and the existence of the input path
  is a boolean parameter.
-/

namespace Informe

/-- Python `\d` (ASCII decimal digits). -/
def isDigitChar (c : Char) : Bool := c.isDigit

/-- Python `\s` (ASCII whitespace: space, tab, newline, CR, VT, FF). -/
def isSpaceChar (c : Char) : Bool :=
  c == ' ' || c == '\t' || c == '\n' || c == '\r' ||
  c == Char.ofNat 11 || c == Char.ofNat 12

/-- Python `\w` (ASCII approximation): letters, digits, underscore. -/
def isWordChar (c : Char) : Bool := c.isAlphanum || c == '_'

/-- Character class `[.\s]`. -/
def dotSpace (c : Char) : Bool := c == '.' || isSpaceChar c

/-- Character class `[/\s]`. -/
def slashSpace (c : Char) : Bool := c == '/' || isSpaceChar c

/-- Character class `[-\s]`. -/
def dashSpace (c : Char) : Bool := c == '-' || isSpaceChar c

/-- Consume exactly `n` digits (`\d{n}`); return them and the rest. -/
def takeDigits : Nat → List Char → Option (List Char × List Char)
  | 0, s => some ([], s)
  | _ + 1, [] => none
  | n + 1, c :: rest =>
    if isDigitChar c then
      (takeDigits n rest).map (fun p => (c :: p.1, p.2))
    else
      none

/-- Consume at most one character of class `p` (`[cls]?`). -/
def takeOpt (p : Char → Bool) : List Char → (List Char × List Char)
  | [] => ([], [])
  | c :: rest => if p c then ([c], rest) else ([], c :: rest)

/-- Match a sequence of `[sep]?\d{n}` pattern pieces at the head of the
input; return the matched text and the rest. -/
def matchGroups : List ((Char → Bool) × Nat) → List Char → Option (List Char × List Char)
  | [], s => some ([], s)
  | (sep, n) :: gs, s =>
    let sp := takeOpt sep s
    match takeDigits n sp.2 with
    | none => none
    | some (ds, s2) =>
      (matchGroups gs s2).map (fun p => (sp.1 ++ ds ++ p.1, p.2))

/-- Try to match `\b\d{lead}(pattern pieces)\b` at the current position.
`prev` is the character just before the position (`none` at the start of
the text).  Since the first and last pattern characters are digits (word
characters), the boundaries amount to: the previous character, if any, is
not a word character, and the character after the match, if any, is not a
word character. -/
def patAt (lead : Nat) (gs : List ((Char → Bool) × Nat)) (prev : Option Char)
    (s : List Char) : Option (List Char × List Char) :=
  if (match prev with | none => true | some c => !isWordChar c) then
    match takeDigits lead s with
    | none => none
    | some (ds, s1) =>
      match matchGroups gs s1 with
      | none => none
      | some (m, r) =>
        if (match r with | [] => true | c :: _ => !isWordChar c) then
          some (ds ++ m, r)
        else
          none
  else
    none

/-- Scan for all non-overlapping matches, left to right, as Python
`finditer` does: at each position try the pattern; on success continue
after the match, on failure advance one character.  `fuel` bounds the
recursion; `fuel = length of the text` is always enough because each step
consumes at least one character. -/
def scanAux (lead : Nat) (gs : List ((Char → Bool) × Nat)) :
    Nat → Option Char → List Char → List (List Char)
  | 0, _, _ => []
  | _ + 1, _, [] => []
  | fuel + 1, prev, c :: rest =>
    match patAt lead gs prev (c :: rest) with
    | some (m, r) => m :: scanAux lead gs fuel (some (m.getLastD c)) r
    | none => scanAux lead gs fuel (some c) rest

/-- All matches of the pattern in the text, in left-to-right order. -/
def findAll (lead : Nat) (gs : List ((Char → Bool) × Nat)) (s : List Char) :
    List (List Char) :=
  scanAux lead gs s.length none s

/-- The `[sep]?\d{n}` pieces of `_CNPJ_RE` after the leading `\d{2}`. -/
def cnpjPieces : List ((Char → Bool) × Nat) :=
  [(dotSpace, 3), (dotSpace, 3), (slashSpace, 4), (dashSpace, 2)]

/-- The `[sep]?\d{n}` pieces of `_CPF_RE` after the leading `\d{3}`. -/
def cpfPieces : List ((Char → Bool) × Nat) :=
  [(dotSpace, 3), (dotSpace, 3), (dashSpace, 2)]

/-- `_CNPJ_RE.finditer(text)`: all matches, left to right. -/
def cnpjMatches (text : List Char) : List (List Char) :=
  findAll 2 cnpjPieces text

/-- `_CPF_RE.finditer(text)`; `_CPF_RE.search` is its head. -/
def cpfMatches (text : List Char) : List (List Char) :=
  findAll 3 cpfPieces text

/-- `re.sub(r"[^\d]", "", s)`: keep only the digits. -/
def stripNonDigits (s : List Char) : List Char :=
  s.filter (fun c => isDigitChar c)

/-- `Identifier` dataclass of `src/identifier.py`: `valor` and `tipo`
(`"CPF" | "CNPJ" | ""`; the grouping pass also uses `"---"`). -/
structure Identifier where
  valor : List Char
  tipo : List Char
deriving DecidableEq, Repr

/-- Python truthiness of an `Identifier`: `bool(self.valor)`. -/
def Identifier.truthy (idr : Identifier) : Bool := !idr.valor.isEmpty

/-- `re.sub(r'[\\/*?:"<>|]', "_", ...)` acting on one character. -/
def sanitizeChar (c : Char) : Char :=
  if c ∈ ['\\', '/', '*', '?', ':', '"', '<', '>', '|'] then '_' else c

/-- `Identifier.nome_arquivo`: the value with invalid Windows characters
replaced by `_`. -/
def Identifier.nome_arquivo (idr : Identifier) : List Char :=
  idr.valor.map sanitizeChar

namespace ExtractorIdentifier

/-- `ExtractorIdentifier._fmt_cnpj`: `raw[:2].raw[2:5].raw[5:8]/raw[8:12]-raw[12:]`. -/
def fmt_cnpj (raw : List Char) : List Char :=
  raw.take 2 ++ '.' :: ((raw.drop 2).take 3) ++ '.' :: ((raw.drop 5).take 3) ++
    '/' :: ((raw.drop 8).take 4) ++ '-' :: raw.drop 12

/-- `ExtractorIdentifier._fmt_cpf`: `raw[:3].raw[3:6].raw[6:9]-raw[9:]`. -/
def fmt_cpf (raw : List Char) : List Char :=
  raw.take 3 ++ '.' :: ((raw.drop 3).take 3) ++ '.' :: ((raw.drop 6).take 3) ++
    '-' :: raw.drop 9

/-- `ExtractorIdentifier._cnpjs`: every match whose stripped digit string
has length 14, formatted, in match order. -/
def cnpjs (text : List Char) : List (List Char) :=
  (cnpjMatches text).filterMap (fun m =>
    let raw := stripNonDigits m
    if raw.length = 14 then some (fmt_cnpj raw) else none)

/-- `ExtractorIdentifier._cpf`: the first match, if its stripped digit
string has length 11, formatted. -/
def cpf (text : List Char) : Option (List Char) :=
  match cpfMatches text with
  | [] => none
  | m :: _ =>
    let raw := stripNonDigits m
    if raw.length = 11 then some (fmt_cpf raw) else none

/-- `ExtractorIdentifier.extract`: the ordered business rules —
≥2 CNPJ matches → the second one; else a CPF if found; else the single
CNPJ if exactly one; else the empty identifier. -/
def extract (text : List Char) : Identifier :=
  match cnpjs text, cpf text with
  | _ :: b :: _, _ => ⟨b, "CNPJ".toList⟩
  | _, some c => ⟨c, "CPF".toList⟩
  | [a], none => ⟨a, "CNPJ".toList⟩
  | [], none => ⟨[], "".toList⟩

end ExtractorIdentifier

/-- Decimal digit characters of a positive number, most significant first;
`fuel` bounds the recursion (`fuel = n` is always enough). -/
def natCharsAux : Nat → Nat → List Char
  | 0, _ => []
  | fuel + 1, n =>
    if n = 0 then [] else natCharsAux fuel (n / 10) ++ [Nat.digitChar (n % 10)]

/-- Decimal digit characters of a natural number, as produced by Python
`str` / f-string interpolation of the non-negative integer `n`. -/
def natChars (n : Nat) : List Char :=
  if n = 0 then ['0'] else natCharsAux n n

/-- The f-string `f"pagina_{n}_sem_identificador"` used by the grouping
pass for a page without identifier and without a previous one (`n` is the
1-based page number). -/
def isolatedName (n : Nat) : List Char :=
  "pagina_".toList ++ natChars n ++ "_sem_identificador".toList

/-- `PageGroup` dataclass of `src/pdf_processor.py`. -/
structure PageGroup where
  identifier : Identifier
  indices : List Nat
deriving DecidableEq, Repr

/-- `PageGroup.count`. -/
def PageGroup.count (g : PageGroup) : Nat := g.indices.length

/-- The `groups` dict of `_group_pages`: a Python `dict` preserves
insertion order, so it is modelled as an association list where new keys
are appended at the end. -/
abbrev Groups := List (List Char × PageGroup)

/-- `groups[key]` lookup. -/
def lookupKey (k : List Char) : Groups → Option PageGroup
  | [] => none
  | (k', g) :: rest => if k' = k then some g else lookupKey k rest

/-- `if key not in groups: groups[key] = PageGroup(identifier=ident)`
followed by `groups[key].indices.append(i)`: append `i` to the existing
group if the key is present (keeping its original identifier), otherwise
append a fresh group at the end of the dict. -/
def addPage (gs : Groups) (k : List Char) (ident : Identifier) (i : Nat) : Groups :=
  match gs with
  | [] => [(k, ⟨ident, [i]⟩)]
  | (k', g) :: rest =>
    if k' = k then
      (k', ⟨g.identifier, g.indices ++ [i]⟩) :: rest
    else
      (k', g) :: addPage rest k ident i

/-- Python truthiness of `last_name and last_id` in the `elif` guard:
both set, the name non-empty, the identifier's value non-empty. -/
def carryOk : Option (List Char) → Option Identifier → Bool
  | some n, some idr => !n.isEmpty && !idr.valor.isEmpty
  | _, _ => false

/-- The carried identifier (`ident = last_id`); only reached under
`carryOk`, which guarantees the option is `some`. -/
def carried : Option Identifier → Identifier
  | some idr => idr
  | none => ⟨[], []⟩

namespace PDFProcessor

/-- The loop body of `PDFProcessor._group_pages` over the remaining page
texts, carrying the 0-based index of the next page, the `last_name` /
`last_id` state and the groups dict.  Each page either provides its own
identifier (which becomes the carry), inherits the carried one, or is
isolated under a synthesized `pagina_<n>_sem_identificador` identifier
(which does not become the carry); the page index is then appended to the
group keyed by `ident.nome_arquivo`. -/
def group_pages_loop :
    List (List Char) → Nat → Option (List Char) → Option Identifier → Groups → Groups
  | [], _, _, _, groups => groups
  | t :: rest, i, last_name, last_id, groups =>
    let ext := ExtractorIdentifier.extract t
    let ident :=
      if ext.truthy then ext
      else if carryOk last_name last_id then carried last_id
      else ⟨isolatedName (i + 1), "---".toList⟩
    let name' := if ext.truthy then some ident.nome_arquivo else last_name
    let id' := if ext.truthy then some ident else last_id
    group_pages_loop rest (i + 1) name' id' (addPage groups ident.nome_arquivo ident i)

/-- `PDFProcessor._group_pages`: first pass over the document. -/
def group_pages (pages : List (List Char)) : Groups :=
  group_pages_loop pages 0 none none []

/-- `PDFProcessor._write_groups`: one output file per group, in dict
order, named `<output_dir>/<key>.pdf`; returns the list of paths. -/
def write_groups (output_dir : List Char) (groups : Groups) : List (List Char) :=
  groups.map (fun kg => output_dir ++ '/' :: (kg.1 ++ ".pdf".toList))

end PDFProcessor

/-- `ProcessingResult` dataclass.  The `datetime` / timing fields carry no
information relevant to the claims and are abstracted to `Unit` / a fixed
rational-free zero. -/
structure ProcessingResult where
  total_pages : Nat
  groups : List PageGroup
  generated_files : List (List Char)
  started_at : Unit := ()
  finished_at : Unit := ()
  elapsed_seconds : Unit := ()
deriving Repr

/-- `ProcessingResult.total_files` property. -/
def ProcessingResult.total_files (r : ProcessingResult) : Nat :=
  r.generated_files.length

/-- The value of one attribute of a `ProcessingResult`, as seen by Python
attribute lookup. -/
inductive AttrVal where
  | natVal (n : Nat)
  | groupsVal (gs : List PageGroup)
  | filesVal (fs : List (List Char))
  | timeVal
deriving Repr

/-- Python attribute lookup on a `ProcessingResult`: the dataclass fields
and the `total_files` property; any other name yields `none`, i.e.
`AttributeError`. -/
def ProcessingResult.readAttr (r : ProcessingResult) (name : List Char) : Option AttrVal :=
  if name = "total_pages".toList then some (.natVal r.total_pages)
  else if name = "groups".toList then some (.groupsVal r.groups)
  else if name = "generated_files".toList then some (.filesVal r.generated_files)
  else if name = "started_at".toList then some .timeVal
  else if name = "finished_at".toList then some .timeVal
  else if name = "elapsed_seconds".toList then some .timeVal
  else if name = "total_files".toList then some (.natVal r.total_files)
  else none

/-- Python exceptions that the embedded fragment can raise. -/
inductive PyError where
  | fileNotFoundError (msg : List Char)
  | attributeError (msg : List Char)
  | typeError (msg : List Char)
  | systemExit
deriving DecidableEq, Repr

/-- `PDFProcessor.process`: raise `FileNotFoundError` when the source path
does not exist (modelled by the boolean `source_exists`); otherwise run the
two passes and return the summary.  The fitz / pypdf readers are abstracted
to the list of page texts. -/
def PDFProcessor.process (output_dir : List Char) (source_exists : Bool)
    (pages : List (List Char)) : Except PyError ProcessingResult :=
  if !source_exists then
    .error (.fileNotFoundError "não encontrado".toList)
  else
    let groups_map := PDFProcessor.group_pages pages
    let files := PDFProcessor.write_groups output_dir groups_map
    .ok { total_pages := pages.length
          groups := groups_map.map (fun kg => kg.2)
          generated_files := files }

/-- The `for pdf in pdfs` loop of `split_pdfs` in `main.py`: process each
input and extend the accumulator with `resultado.arquivos_gerados`
(a Python attribute read, which raises `AttributeError` when the name is
not defined on the object). -/
def split_pdfs_loop (output_dir : List Char) :
    List (Bool × List (List Char)) → List (List Char) → Except PyError (List (List Char))
  | [], acc => .ok acc
  | (source_exists, pages) :: rest, acc =>
    match PDFProcessor.process output_dir source_exists pages with
    | .error e => .error e
    | .ok resultado =>
      match resultado.readAttr "arquivos_gerados".toList with
      | none =>
        .error (.attributeError
          "ProcessingResult object has no attribute arquivos_gerados".toList)
      | some (.filesVal fs) => split_pdfs_loop output_dir rest (acc ++ fs)
      | some _ =>
        -- `list.extend` applied to a non-list attribute; unreachable
        .error (.typeError "argument is not iterable".toList)

/-- `split_pdfs` in `main.py`: `sys.exit(0)` when no input PDF is found,
otherwise process every input in order. -/
def split_pdfs (output_dir : List Char) (pdfs : List (Bool × List (List Char))) :
    Except PyError (List (List Char)) :=
  if pdfs.isEmpty then .error .systemExit
  else split_pdfs_loop output_dir pdfs []

/-- All page indices of the groups dict, in storage order. -/
def allIndices (gs : Groups) : List Nat :=
  gs.foldr (fun kg acc => kg.2.indices ++ acc) []

/-- Invariant of the grouping scan when the next page index is `bound`:
every group is non-empty with strictly increasing indices below `bound`,
the first-encounter indices (the head of each group) strictly increase
along the dict order, and keys are unique. -/
def GroupsInv (gs : Groups) (bound : Nat) : Prop :=
  (∀ kg ∈ gs, kg.2.indices ≠ [] ∧ List.Chain' (· < ·) kg.2.indices ∧
    ∀ x ∈ kg.2.indices, x < bound) ∧
  List.Chain' (· < ·) (gs.map fun kg => kg.2.indices.headD 0) ∧
  (gs.map Prod.fst).Nodup

/-! ## Helper lemmas about the extractor -/

/-- Every element of `_cnpjs` is the formatting of a 14-digit string. -/
theorem mem_cnpjs_shape {text x : List Char}
    (hx : x ∈ ExtractorIdentifier.cnpjs text) :
    ∃ raw : List Char, raw.length = 14 ∧ (∀ c ∈ raw, isDigitChar c = true) ∧
      x = ExtractorIdentifier.fmt_cnpj raw := by
  unfold ExtractorIdentifier.cnpjs at hx
  rw [List.mem_filterMap] at hx
  obtain ⟨m, _, heq⟩ := hx
  by_cases hl : (stripNonDigits m).length = 14
  · refine ⟨stripNonDigits m, hl, ?_, ?_⟩
    · intro c hc
      exact List.of_mem_filter hc
    · simp only [hl, if_true] at heq
      exact (Option.some_inj.mp heq).symm
  · simp [hl] at heq

/-- A successful `_cpf` is the formatting of an 11-digit string. -/
theorem cpf_shape {text x : List Char}
    (hx : ExtractorIdentifier.cpf text = some x) :
    ∃ raw : List Char, raw.length = 11 ∧ (∀ c ∈ raw, isDigitChar c = true) ∧
      x = ExtractorIdentifier.fmt_cpf raw := by
  unfold ExtractorIdentifier.cpf at hx
  cases hm : cpfMatches text with
  | nil => rw [hm] at hx; exact absurd hx (by simp)
  | cons m tl =>
    rw [hm] at hx
    by_cases hl : (stripNonDigits m).length = 11
    · refine ⟨stripNonDigits m, hl, ?_, ?_⟩
      · intro c hc
        exact List.of_mem_filter hc
      · simp only [hl, if_true] at hx
        exact (Option.some_inj.mp hx).symm
    · simp [hl] at hx

/-! ## C2 / C3: the disambiguation rules of `extract` -/

/-- C2: on a page text where at least two distinct company-identifier
matches (14 stripped digits) are found, `extract` returns the second one
in left-to-right order, canonicalized to punctuated form, with kind
`"CNPJ"` (the spec's COMPANY). -/
theorem extract_second_cnpj (text a b : List Char) (rest : List (List Char))
    (h : ExtractorIdentifier.cnpjs text = a :: b :: rest) (hab : a ≠ b) :
    ExtractorIdentifier.extract text = ⟨b, "CNPJ".toList⟩ ∧
    ∃ raw : List Char, raw.length = 14 ∧ (∀ c ∈ raw, isDigitChar c = true) ∧
      b = ExtractorIdentifier.fmt_cnpj raw := by
  constructor
  · cases hp : ExtractorIdentifier.cpf text <;>
      simp [ExtractorIdentifier.extract, h, hp]
  · exact mem_cnpjs_shape (by rw [h]; exact List.mem_cons_of_mem _ (List.mem_cons_self _ _))

/-- Witness for `extract_second_cnpj` at a concrete two-CNPJ text. -/
theorem extract_second_cnpj_witness :
    ExtractorIdentifier.extract "11.222.333/0001-81 12.345.678/0001-95".toList =
      ⟨"12.345.678/0001-95".toList, "CNPJ".toList⟩ ∧
    ∃ raw : List Char, raw.length = 14 ∧ (∀ c ∈ raw, isDigitChar c = true) ∧
      "12.345.678/0001-95".toList = ExtractorIdentifier.fmt_cnpj raw :=
  extract_second_cnpj "11.222.333/0001-81 12.345.678/0001-95".toList
    "11.222.333/0001-81".toList "12.345.678/0001-95".toList []
    (by decide) (by decide)

/-- C3: when fewer than two company-identifier matches are found,
`extract` returns the first 11-digit individual match as kind `"CPF"`
(the spec's INDIVIDUAL) if one exists — even when exactly one company
match is also present; otherwise the single company match as `"CNPJ"`
if exactly one was found; otherwise the empty identifier. -/
theorem extract_fallback_rules (text : List Char)
    (h : (ExtractorIdentifier.cnpjs text).length < 2) :
    (∀ c, ExtractorIdentifier.cpf text = some c →
      ExtractorIdentifier.extract text = ⟨c, "CPF".toList⟩) ∧
    (ExtractorIdentifier.cpf text = none →
      ∀ a, ExtractorIdentifier.cnpjs text = [a] →
        ExtractorIdentifier.extract text = ⟨a, "CNPJ".toList⟩) ∧
    (ExtractorIdentifier.cpf text = none →
      ExtractorIdentifier.cnpjs text = [] →
        ExtractorIdentifier.extract text = ⟨[], "".toList⟩) := by
  refine ⟨?_, ?_, ?_⟩
  · intro c hc
    cases hn : ExtractorIdentifier.cnpjs text with
    | nil => simp [ExtractorIdentifier.extract, hn, hc]
    | cons x tl =>
      cases tl with
      | nil => simp [ExtractorIdentifier.extract, hn, hc]
      | cons y tl2 => rw [hn] at h; simp only [List.length_cons] at h; omega
  · intro hp a ha
    simp [ExtractorIdentifier.extract, ha, hp]
  · intro hp ha
    simp [ExtractorIdentifier.extract, ha, hp]

/-- Witness for `extract_fallback_rules` on a text holding one company
match and one individual match: the individual one wins. -/
theorem extract_fallback_rules_witness :
    ExtractorIdentifier.extract "11.222.333/0001-81 111.444.777-35".toList =
      ⟨"111.444.777-35".toList, "CPF".toList⟩ :=
  (extract_fallback_rules "11.222.333/0001-81 111.444.777-35".toList
    (by decide)).1 "111.444.777-35".toList (by decide)

/-! ## C8: formatting round-trips -/

/-- C8: stripping the punctuation from the individual formatting of an
11-digit string returns the string, and likewise for the company
formatting of a 14-digit string. -/
theorem fmt_strip_roundtrip (s t : List Char)
    (hs : s.length = 11) (hsd : ∀ c ∈ s, isDigitChar c = true)
    (ht : t.length = 14) (htd : ∀ c ∈ t, isDigitChar c = true) :
    stripNonDigits (ExtractorIdentifier.fmt_cpf s) = s ∧
    stripNonDigits (ExtractorIdentifier.fmt_cnpj t) = t := by
  have hfilter : ∀ (u v : List Char), (∀ c ∈ u, isDigitChar c = true) →
      (∀ c ∈ v, c ∈ u) → List.filter (fun c => isDigitChar c) v = v := by
    intro u v hu hv
    refine List.filter_eq_self.mpr ?_
    intro c hc
    exact hu c (hv c hc)
  constructor
  · unfold ExtractorIdentifier.fmt_cpf
    simp only [stripNonDigits, List.filter_append, List.filter_cons]
    rw [show isDigitChar '.' = false from rfl, show isDigitChar '-' = false from rfl]
    simp only [Bool.false_eq_true, if_false]
    rw [hfilter s _ hsd (fun c hc => List.mem_of_mem_take hc),
      hfilter s _ hsd (fun c hc => List.mem_of_mem_drop (List.mem_of_mem_take hc)),
      hfilter s _ hsd (fun c hc => List.mem_of_mem_drop (List.mem_of_mem_take hc)),
      hfilter s _ hsd (fun c hc => List.mem_of_mem_drop hc)]
    rw [show s.drop 9 = (s.drop 6).drop 3 by rw [List.drop_drop]]
    simp only [List.append_assoc]
    rw [List.take_append_drop]
    rw [show s.drop 6 = (s.drop 3).drop 3 by rw [List.drop_drop]]
    rw [List.take_append_drop, List.take_append_drop]
  · unfold ExtractorIdentifier.fmt_cnpj
    simp only [stripNonDigits, List.filter_append, List.filter_cons]
    rw [show isDigitChar '.' = false from rfl, show isDigitChar '-' = false from rfl,
      show isDigitChar '/' = false from rfl]
    simp only [Bool.false_eq_true, if_false]
    rw [hfilter t _ htd (fun c hc => List.mem_of_mem_take hc),
      hfilter t _ htd (fun c hc => List.mem_of_mem_drop (List.mem_of_mem_take hc)),
      hfilter t _ htd (fun c hc => List.mem_of_mem_drop (List.mem_of_mem_take hc)),
      hfilter t _ htd (fun c hc => List.mem_of_mem_drop (List.mem_of_mem_take hc)),
      hfilter t _ htd (fun c hc => List.mem_of_mem_drop hc)]
    rw [show t.drop 12 = (t.drop 8).drop 4 by rw [List.drop_drop]]
    simp only [List.append_assoc]
    rw [List.take_append_drop]
    rw [show t.drop 8 = (t.drop 5).drop 3 by rw [List.drop_drop]]
    rw [List.take_append_drop]
    rw [show t.drop 5 = (t.drop 2).drop 3 by rw [List.drop_drop]]
    rw [List.take_append_drop, List.take_append_drop]

/-- Witness for `fmt_strip_roundtrip` at concrete digit strings. -/
theorem fmt_strip_roundtrip_witness :
    stripNonDigits (ExtractorIdentifier.fmt_cpf "11144477735".toList) =
      "11144477735".toList ∧
    stripNonDigits (ExtractorIdentifier.fmt_cnpj "11222333000181".toList) =
      "11222333000181".toList :=
  fmt_strip_roundtrip "11144477735".toList "11222333000181".toList
    (by decide) (by decide) (by decide) (by decide)

/-! ## C9: missing input file -/

/-- C9: `process` fails exactly when the source path does not exist, the
failure is a `FileNotFoundError` propagated to the caller, and in that
case no result (hence no output file) is produced. -/
theorem process_error_iff_missing (output_dir : List Char) (source_exists : Bool)
    (pages : List (List Char)) :
    ((∃ msg, PDFProcessor.process output_dir source_exists pages =
        .error (.fileNotFoundError msg)) ↔ source_exists = false) ∧
    (∀ e, PDFProcessor.process output_dir source_exists pages = .error e →
      ∃ msg, e = .fileNotFoundError msg) := by
  cases source_exists <;> simp [PDFProcessor.process]

/-! ## C10: the `arquivos_gerados` attribute error -/

/-- `ProcessingResult` defines no attribute `arquivos_gerados`. -/
theorem readAttr_arquivos_gerados (r : ProcessingResult) :
    r.readAttr "arquivos_gerados".toList = none := rfl

/-- C10: whenever `split_pdfs` finds at least one input PDF and every
`process` call returns a result, the read of `resultado.arquivos_gerados`
raises `AttributeError` before `split_pdfs` can return: `ProcessingResult`
only defines `generated_files` (and the `total_files` property). -/
theorem split_pdfs_attribute_error (output_dir : List Char)
    (pdfs : List (Bool × List (List Char)))
    (hne : pdfs ≠ []) (hex : ∀ p ∈ pdfs, p.1 = true) :
    split_pdfs output_dir pdfs =
      .error (.attributeError
        "ProcessingResult object has no attribute arquivos_gerados".toList) := by
  cases pdfs with
  | nil => exact absurd rfl hne
  | cons p rest =>
    obtain ⟨ex, pages⟩ := p
    have hx : ex = true := hex (ex, pages) (List.mem_cons_self _ _)
    subst hx
    simp only [split_pdfs, split_pdfs_loop, PDFProcessor.process, List.isEmpty_cons,
      Bool.not_true, Bool.false_eq_true, if_false]
    rfl

/-- Witness for `split_pdfs_attribute_error` at a concrete run with one
input document of one page. -/
theorem split_pdfs_attribute_error_witness :
    split_pdfs "output".toList [(true, ["111.444.777-35".toList])] =
      .error (.attributeError
        "ProcessingResult object has no attribute arquivos_gerados".toList) :=
  split_pdfs_attribute_error "output".toList [(true, ["111.444.777-35".toList])]
    (by decide) (by simp)

/-! ## C1: the grouping pass partitions the page indices -/

theorem allIndices_nil : allIndices [] = [] := rfl

theorem allIndices_cons (k : List Char) (g : PageGroup) (rest : Groups) :
    allIndices ((k, g) :: rest) = g.indices ++ allIndices rest := rfl

/-- Adding one page to the dict adds exactly that one index. -/
theorem allIndices_addPage (gs : Groups) (k : List Char) (ident : Identifier) (i : Nat) :
    (allIndices (addPage gs k ident i)).Perm (allIndices gs ++ [i]) := by
  induction gs with
  | nil => simp [addPage, allIndices]
  | cons kg rest ih =>
    obtain ⟨k', g⟩ := kg
    by_cases hk : k' = k
    · simp only [addPage, hk, if_true, allIndices_cons, List.append_assoc]
      exact List.Perm.append_left _ List.perm_append_comm
    · simp only [addPage, hk, if_false, allIndices_cons]
      refine (List.Perm.append_left _ ih).trans ?_
      rw [List.append_assoc]

/-- The loop appends exactly the indices it scans. -/
theorem allIndices_loop (pages : List (List Char)) :
    ∀ (i : Nat) (ln : Option (List Char)) (li : Option Identifier) (gs : Groups),
    (allIndices (PDFProcessor.group_pages_loop pages i ln li gs)).Perm
      (allIndices gs ++ List.range' i pages.length) := by
  induction pages with
  | nil =>
    intro i ln li gs
    simp [PDFProcessor.group_pages_loop, List.range']
  | cons t rest ih =>
    intro i ln li gs
    rw [PDFProcessor.group_pages_loop]
    refine (ih (i + 1) _ _ _).trans ?_
    refine (List.Perm.append_right _ (allIndices_addPage gs _ _ i)).trans ?_
    rw [List.append_assoc]
    rfl

/-- C1: for every document, the multiset of page indices stored in the
groups returned by `_group_pages` is exactly `{0, …, N−1}`: page-index
sets are pairwise disjoint and their union covers every source page,
none lost, none duplicated. -/
theorem group_pages_partitions (pages : List (List Char)) :
    (allIndices (PDFProcessor.group_pages pages)).Perm (List.range pages.length) := by
  have h := allIndices_loop pages 0 none none []
  rw [List.range_eq_range']
  simpa [PDFProcessor.group_pages, allIndices_nil] using h

/-! ## C5: order preservation -/

theorem headD_append_of_ne_nil {α : Type} (A B : List α) (d : α) (h : A ≠ []) :
    (A ++ B).headD d = A.headD d := by
  cases A with
  | nil => exact absurd rfl h
  | cons a A => rfl

/-- An element of a list is its last element or an earlier member. -/
theorem mem_of_mem_getLastHuh {α : Type} {l : List α} {x : α}
    (h : x ∈ l.getLast?) : x ∈ l := by
  obtain ⟨hne, rfl⟩ := List.mem_getLast?_eq_getLast h
  exact List.getLast_mem hne

/-- Where an entry of `addPage gs k ident i` comes from. -/
theorem mem_addPage {gs : Groups} {k : List Char} {ident : Identifier} {i : Nat}
    {kg : List Char × PageGroup} (h : kg ∈ addPage gs k ident i) :
    kg ∈ gs ∨
    (∃ g', (kg.1, g') ∈ gs ∧ kg.2.indices = g'.indices ++ [i]) ∨
    kg = (k, ⟨ident, [i]⟩) := by
  induction gs with
  | nil =>
    right; right
    simpa [addPage] using h
  | cons kg' rest ih =>
    obtain ⟨k', g⟩ := kg'
    by_cases hk : k' = k
    · subst hk
      simp only [addPage, if_pos rfl] at h
      rcases List.mem_cons.mp h with rfl | hm
      · right; left
        exact ⟨g, List.mem_cons_self _ _, rfl⟩
      · left
        exact List.mem_cons_of_mem _ hm
    · simp only [addPage, hk, if_false] at h
      rcases List.mem_cons.mp h with rfl | hm
      · left
        exact List.mem_cons_self _ _
      · rcases ih hm with h1 | ⟨g', hg', hind⟩ | h1
        · exact Or.inl (List.mem_cons_of_mem _ h1)
        · exact Or.inr (Or.inl ⟨g', List.mem_cons_of_mem _ hg', hind⟩)
        · exact Or.inr (Or.inr h1)

/-- `addPage` either extends an existing entry (keys and first-encounter
heads unchanged) or appends a fresh entry at the end. -/
theorem addPage_cases (gs : Groups) (k : List Char) (ident : Identifier) (i : Nat)
    (hne : ∀ kg ∈ gs, kg.2.indices ≠ []) :
    ((addPage gs k ident i).map Prod.fst = gs.map Prod.fst ∧
      (addPage gs k ident i).map (fun kg => kg.2.indices.headD 0) =
        gs.map (fun kg => kg.2.indices.headD 0)) ∨
    ((addPage gs k ident i).map Prod.fst = gs.map Prod.fst ++ [k] ∧
      k ∉ gs.map Prod.fst ∧
      (addPage gs k ident i).map (fun kg => kg.2.indices.headD 0) =
        (gs.map fun kg => kg.2.indices.headD 0) ++ [i]) := by
  induction gs with
  | nil =>
    right
    simp [addPage]
  | cons kg' rest ih =>
    obtain ⟨k', g⟩ := kg'
    by_cases hk : k' = k
    · subst hk
      left
      have hg : g.indices ≠ [] := (hne (k', g) (List.mem_cons_self _ _))
      constructor
      · rw [addPage, if_pos rfl, List.map_cons, List.map_cons]
      · rw [addPage, if_pos rfl, List.map_cons, List.map_cons]
        rw [headD_append_of_ne_nil _ _ _ hg]
    · have hrest : ∀ kg ∈ rest, kg.2.indices ≠ [] :=
        fun kg hm => hne kg (List.mem_cons_of_mem _ hm)
      rcases ih hrest with ⟨hkeys, hheads⟩ | ⟨hkeys, hnotin, hheads⟩
      · left
        constructor
        · simp only [addPage, hk, if_false, List.map_cons, hkeys]
        · simp only [addPage, hk, if_false, List.map_cons, hheads]
      · right
        refine ⟨?_, ?_, ?_⟩
        · simp only [addPage, hk, if_false, List.map_cons, hkeys, List.cons_append]
        · simp only [List.map_cons, List.mem_cons]
          rintro (h1 | h1)
          · exact hk h1.symm
          · exact hnotin h1
        · simp only [addPage, hk, if_false, List.map_cons, hheads, List.cons_append]

/-- Each head of a group under the invariant is a stored index, hence
below the bound. -/
theorem heads_lt_of_inv {gs : Groups} {i : Nat}
    (h1 : ∀ kg ∈ gs, kg.2.indices ≠ [] ∧ List.Chain' (· < ·) kg.2.indices ∧
      ∀ x ∈ kg.2.indices, x < i) :
    ∀ x ∈ gs.map (fun kg => kg.2.indices.headD 0), x < i := by
  intro x hx
  rw [List.mem_map] at hx
  obtain ⟨kg, hm, rfl⟩ := hx
  obtain ⟨hn, _, hb⟩ := h1 kg hm
  apply hb
  cases hi : kg.2.indices with
  | nil => exact absurd hi hn
  | cons a l => simp [hi]

/-- `addPage` at index `i` preserves the grouping invariant. -/
theorem addPage_inv {gs : Groups} {i : Nat} (h : GroupsInv gs i)
    (k : List Char) (ident : Identifier) :
    GroupsInv (addPage gs k ident i) (i + 1) := by
  obtain ⟨h1, h2, h3⟩ := h
  have hne : ∀ kg ∈ gs, kg.2.indices ≠ [] := fun kg hm => (h1 kg hm).1
  refine ⟨?_, ?_, ?_⟩
  · intro kg hkg
    rcases mem_addPage hkg with hm | ⟨g', hg', hind⟩ | rfl
    · obtain ⟨hn, hc, hb⟩ := h1 kg hm
      exact ⟨hn, hc, fun x hx => Nat.lt_succ_of_lt (hb x hx)⟩
    · obtain ⟨hn, hc, hb⟩ := h1 (kg.1, g') hg'
      refine ⟨by simp [hind], ?_, ?_⟩
      · rw [hind, List.chain'_append]
        refine ⟨hc, List.chain'_singleton _, ?_⟩
        intro x hx y hy
        have hxm : x ∈ g'.indices := mem_of_mem_getLastHuh hx
        have hyi : i = y := by simpa using hy
        exact hyi ▸ hb x hxm
      · intro x hx
        rw [hind] at hx
        rcases List.mem_append.mp hx with hxx | hxx
        · exact Nat.lt_succ_of_lt (hb x hxx)
        · have : x = i := by simpa using hxx
          subst this
          exact Nat.lt_succ_self _
    · refine ⟨by simp, List.chain'_singleton _, ?_⟩
      intro x hx
      have : x = i := by simpa using hx
      subst this
      exact Nat.lt_succ_self _
  · rcases addPage_cases gs k ident i hne with ⟨_, hheads⟩ | ⟨_, _, hheads⟩
    · rw [hheads]; exact h2
    · rw [hheads, List.chain'_append]
      refine ⟨h2, List.chain'_singleton _, ?_⟩
      intro x hx y hy
      have hxm := mem_of_mem_getLastHuh hx
      have hyi : i = y := by simpa using hy
      exact hyi ▸ heads_lt_of_inv h1 x hxm
  · rcases addPage_cases gs k ident i hne with ⟨hkeys, _⟩ | ⟨hkeys, hnotin, _⟩
    · rw [hkeys]; exact h3
    · rw [hkeys, List.nodup_append]
      refine ⟨h3, List.nodup_singleton _, ?_⟩
      intro x hxl hxr
      rw [List.mem_singleton] at hxr
      subst hxr
      exact hnotin hxl

/-- The scan loop preserves the grouping invariant. -/
theorem loop_inv (pages : List (List Char)) :
    ∀ (i : Nat) (ln : Option (List Char)) (li : Option Identifier) (gs : Groups),
    GroupsInv gs i →
    GroupsInv (PDFProcessor.group_pages_loop pages i ln li gs) (i + pages.length) := by
  induction pages with
  | nil =>
    intro i ln li gs h
    simpa [PDFProcessor.group_pages_loop] using h
  | cons t rest ih =>
    intro i ln li gs h
    rw [PDFProcessor.group_pages_loop]
    simp only [List.length_cons]
    have heq : i + (rest.length + 1) = i + 1 + rest.length := by omega
    rw [heq]
    exact ih (i + 1) _ _ _ (addPage_inv h _ _)

/-- C5: within every group of `_group_pages` the page indices strictly
increase in scan order, and the dict iterates the groups in the order
their keys were first encountered: each group is non-empty, its head is
the index at which its key first appeared, these first-encounter indices
strictly increase along the dict order, and keys are unique. -/
theorem group_pages_order (pages : List (List Char)) :
    (∀ kg ∈ PDFProcessor.group_pages pages,
      kg.2.indices ≠ [] ∧ List.Chain' (· < ·) kg.2.indices) ∧
    List.Chain' (· < ·)
      ((PDFProcessor.group_pages pages).map (fun kg => kg.2.indices.headD 0)) ∧
    ((PDFProcessor.group_pages pages).map Prod.fst).Nodup := by
  have h := loop_inv pages 0 none none [] ⟨by simp, by simp, by simp⟩
  obtain ⟨h1, h2, h3⟩ := h
  exact ⟨fun kg hm => ⟨(h1 kg hm).1, (h1 kg hm).2.1⟩, h2, h3⟩

/-! ## Shape of extracted identifiers and of isolated-page keys -/

/-- A truthy extraction carries a formatted CNPJ or a formatted CPF. -/
theorem extract_truthy_shape {t : List Char}
    (h : (ExtractorIdentifier.extract t).truthy = true) :
    (∃ raw : List Char, raw.length = 14 ∧
      (ExtractorIdentifier.extract t).valor = ExtractorIdentifier.fmt_cnpj raw) ∨
    (∃ raw : List Char, raw.length = 11 ∧
      (ExtractorIdentifier.extract t).valor = ExtractorIdentifier.fmt_cpf raw) := by
  cases hn : ExtractorIdentifier.cnpjs t with
  | nil =>
    cases hp : ExtractorIdentifier.cpf t with
    | none =>
      rw [ExtractorIdentifier.extract, hn, hp] at h
      simp [Identifier.truthy] at h
    | some c =>
      right
      obtain ⟨raw, hlen, _, rfl⟩ := cpf_shape hp
      exact ⟨raw, hlen, by rw [ExtractorIdentifier.extract, hn, hp]⟩
  | cons a tl =>
    cases tl with
    | nil =>
      cases hp : ExtractorIdentifier.cpf t with
      | none =>
        left
        obtain ⟨raw, hlen, _, rfl⟩ :=
          mem_cnpjs_shape (by rw [hn]; exact List.mem_cons_self _ _)
        exact ⟨raw, hlen, by rw [ExtractorIdentifier.extract, hn, hp]⟩
      | some c =>
        right
        obtain ⟨raw, hlen, _, rfl⟩ := cpf_shape hp
        exact ⟨raw, hlen, by rw [ExtractorIdentifier.extract, hn, hp]⟩
    | cons b tl2 =>
      left
      have hb : b ∈ ExtractorIdentifier.cnpjs t := by
        rw [hn]
        exact List.mem_cons_of_mem _ (List.mem_cons_self _ _)
      obtain ⟨raw, hlen, _, hbe⟩ := mem_cnpjs_shape hb
      refine ⟨raw, hlen, ?_⟩
      cases hp : ExtractorIdentifier.cpf t <;>
        simp [ExtractorIdentifier.extract, hn, hp, hbe]

/-- A formatted CNPJ has the dot at position 2. -/
theorem fmt_cnpj_get_two {raw : List Char} (h : raw.length = 14) :
    (ExtractorIdentifier.fmt_cnpj raw).get? 2 = some '.' := by
  cases raw with
  | nil => simp at h
  | cons c1 r1 =>
    cases r1 with
    | nil => simp at h
    | cons c2 r2 => rfl

/-- A formatted CPF has the dot at position 3. -/
theorem fmt_cpf_get_three {raw : List Char} (h : raw.length = 11) :
    (ExtractorIdentifier.fmt_cpf raw).get? 3 = some '.' := by
  cases raw with
  | nil => simp at h
  | cons c1 r1 =>
    cases r1 with
    | nil => simp at h
    | cons c2 r2 =>
      cases r2 with
      | nil => simp at h
      | cons c3 r3 => rfl

theorem isolatedName_get_two (n : Nat) : (isolatedName n).get? 2 = some 'g' := by
  rw [isolatedName, List.append_assoc, List.get?_append (by decide)]
  rfl

theorem isolatedName_get_three (n : Nat) : (isolatedName n).get? 3 = some 'i' := by
  rw [isolatedName, List.append_assoc, List.get?_append (by decide)]
  rfl

/-- The file-safe key of a formatted identifier is never an
`pagina_<n>_sem_identificador` key: sanitizing keeps the dot at
position 2 (CNPJ) or 3 (CPF), where the isolated key has `g` / `i`. -/
theorem shape_key_ne_isolatedName {idr : Identifier}
    (h : (∃ raw : List Char, raw.length = 14 ∧
        idr.valor = ExtractorIdentifier.fmt_cnpj raw) ∨
      (∃ raw : List Char, raw.length = 11 ∧
        idr.valor = ExtractorIdentifier.fmt_cpf raw))
    (n : Nat) : idr.nome_arquivo ≠ isolatedName n := by
  intro heq
  rcases h with ⟨raw, hlen, hval⟩ | ⟨raw, hlen, hval⟩
  · have h1 : idr.nome_arquivo.get? 2 = some '.' := by
      rw [Identifier.nome_arquivo, List.get?_map, hval, fmt_cnpj_get_two hlen]
      rfl
    rw [heq, isolatedName_get_two] at h1
    exact absurd h1 (by decide)
  · have h1 : idr.nome_arquivo.get? 3 = some '.' := by
      rw [Identifier.nome_arquivo, List.get?_map, hval, fmt_cpf_get_three hlen]
      rfl
    rw [heq, isolatedName_get_three] at h1
    exact absurd h1 (by decide)

/-- The key of a truthy extraction is never an isolated-page key. -/
theorem extract_key_ne_isolatedName {t : List Char}
    (h : (ExtractorIdentifier.extract t).truthy = true) (n : Nat) :
    (ExtractorIdentifier.extract t).nome_arquivo ≠ isolatedName n :=
  shape_key_ne_isolatedName (extract_truthy_shape h) n

/-! ## Decimal numerals: evaluation and injectivity -/

theorem natCharsAux_eq_digits :
    ∀ (fuel n : Nat), n ≤ fuel →
    natCharsAux fuel n = (Nat.digits 10 n).reverse.map Nat.digitChar := by
  intro fuel
  induction fuel with
  | zero =>
    intro n hn
    have : n = 0 := Nat.le_zero.mp hn
    subst this
    simp [natCharsAux]
  | succ fuel ih =>
    intro n hn
    by_cases h0 : n = 0
    · subst h0
      simp [natCharsAux]
    · rw [natCharsAux, if_neg h0]
      rw [Nat.digits_def' (by norm_num : (1:Nat) < 10) (Nat.pos_of_ne_zero h0)]
      rw [List.reverse_cons, List.map_append]
      rw [ih (n / 10) (by
        have := Nat.div_lt_self (Nat.pos_of_ne_zero h0) (by norm_num : (1:Nat) < 10)
        omega)]
      rfl

theorem natChars_of_ne_zero {n : Nat} (h : n ≠ 0) :
    natChars n = (Nat.digits 10 n).reverse.map Nat.digitChar := by
  rw [natChars, if_neg h]
  exact natCharsAux_eq_digits n n (Nat.le_refl n)

theorem digitChar_injOn :
    ∀ d, d < 10 → ∀ e, e < 10 → Nat.digitChar d = Nat.digitChar e → d = e := by
  decide

theorem map_digitChar_inj :
    ∀ (l1 l2 : List Nat), (∀ d ∈ l1, d < 10) → (∀ d ∈ l2, d < 10) →
    l1.map Nat.digitChar = l2.map Nat.digitChar → l1 = l2 := by
  intro l1
  induction l1 with
  | nil =>
    intro l2 _ _ h
    cases l2 with
    | nil => rfl
    | cons e t2 => simp at h
  | cons d t ih =>
    intro l2 h1 h2 h
    cases l2 with
    | nil => simp at h
    | cons e t2 =>
      simp only [List.map_cons, List.cons.injEq] at h
      have hd : d = e :=
        digitChar_injOn d (h1 d (List.mem_cons_self _ _)) e
          (h2 e (List.mem_cons_self _ _)) h.1
      have ht : t = t2 :=
        ih t2 (fun x hx => h1 x (List.mem_cons_of_mem _ hx))
          (fun x hx => h2 x (List.mem_cons_of_mem _ hx)) h.2
      rw [hd, ht]

/-- Positive numbers have non-zero leading digit lists. -/
theorem natChars_pos_ne_zero_chars {n : Nat} (hn : n ≠ 0) :
    natChars n ≠ ['0'] := by
  intro h
  rw [natChars_of_ne_zero hn] at h
  cases hd : Nat.digits 10 n with
  | nil => exact hn (Nat.digits_eq_nil_iff_eq_zero.mp hd)
  | cons d tl =>
    cases tl with
    | nil =>
      rw [hd] at h
      simp only [List.reverse_cons, List.reverse_nil, List.nil_append,
        List.map_cons, List.map_nil, List.cons.injEq] at h
      have hd10 : d < 10 :=
        Nat.digits_lt_base (by norm_num) (hd ▸ List.mem_cons_self d [])
      have hd0 : d = 0 := digitChar_injOn d hd10 0 (by norm_num) h.1
      subst hd0
      have hofd := Nat.ofDigits_digits 10 n
      rw [hd] at hofd
      simp [Nat.ofDigits_cons, Nat.ofDigits_nil] at hofd
      exact hn hofd.symm
    | cons d2 tl2 =>
      rw [hd] at h
      have := congrArg List.length h
      simp at this

theorem natChars_zero : natChars 0 = ['0'] := rfl

theorem natChars_inj : ∀ {m n : Nat}, natChars m = natChars n → m = n := by
  intro m n h
  by_cases hm : m = 0
  · by_cases hn : n = 0
    · rw [hm, hn]
    · subst hm
      rw [natChars_zero] at h
      exact absurd h.symm (natChars_pos_ne_zero_chars hn)
  · by_cases hn : n = 0
    · subst hn
      rw [natChars_zero] at h
      exact absurd h (natChars_pos_ne_zero_chars hm)
    · rw [natChars_of_ne_zero hm, natChars_of_ne_zero hn] at h
      have hdig : (Nat.digits 10 m).reverse = (Nat.digits 10 n).reverse :=
        map_digitChar_inj _ _
          (fun d hd => Nat.digits_lt_base (by norm_num) (List.mem_reverse.mp hd))
          (fun d hd => Nat.digits_lt_base (by norm_num) (List.mem_reverse.mp hd)) h
      have hdig2 : Nat.digits 10 m = Nat.digits 10 n := by
        have := congrArg List.reverse hdig
        simpa using this
      calc m = Nat.ofDigits 10 (Nat.digits 10 m) := (Nat.ofDigits_digits 10 m).symm
        _ = Nat.ofDigits 10 (Nat.digits 10 n) := by rw [hdig2]
        _ = n := Nat.ofDigits_digits 10 n

theorem isolatedName_inj : ∀ {m n : Nat}, isolatedName m = isolatedName n → m = n := by
  intro m n h
  rw [isolatedName, isolatedName, List.append_assoc, List.append_assoc] at h
  have h1 := List.append_cancel_left h
  have h2 := List.append_cancel_right h1
  exact natChars_inj h2

/-- Every character of a decimal numeral survives sanitizing. -/
theorem natCharsAux_chars :
    ∀ (fuel n : Nat) (c : Char), c ∈ natCharsAux fuel n → ∃ d, d < 10 ∧ c = Nat.digitChar d := by
  intro fuel
  induction fuel with
  | zero => intro n c h; simp [natCharsAux] at h
  | succ fuel ih =>
    intro n c h
    by_cases h0 : n = 0
    · rw [natCharsAux, if_pos h0] at h
      simp at h
    · rw [natCharsAux, if_neg h0] at h
      rcases List.mem_append.mp h with h1 | h1
      · exact ih (n / 10) c h1
      · have : c = Nat.digitChar (n % 10) := by simpa using h1
        exact ⟨n % 10, Nat.mod_lt n (by norm_num), this⟩

theorem sanitizeChar_digitChar : ∀ d, d < 10 → sanitizeChar (Nat.digitChar d) = Nat.digitChar d := by
  decide

theorem map_id_of_forall {α : Type} (f : α → α) :
    ∀ (l : List α), (∀ c ∈ l, f c = c) → l.map f = l := by
  intro l
  induction l with
  | nil => intro _; rfl
  | cons c tl ih =>
    intro h
    rw [List.map_cons, h c (List.mem_cons_self _ _),
      ih (fun x hx => h x (List.mem_cons_of_mem _ hx))]

theorem map_sanitize_natChars (n : Nat) :
    (natChars n).map sanitizeChar = natChars n := by
  by_cases h0 : n = 0
  · subst h0
    rfl
  · rw [natChars, if_neg h0]
    refine map_id_of_forall _ _ ?_
    intro c hc
    obtain ⟨d, hd, rfl⟩ := natCharsAux_chars n n c hc
    exact sanitizeChar_digitChar d hd

/-- Sanitizing leaves an isolated-page key unchanged. -/
theorem sanitize_isolatedName (n : Nat) :
    (isolatedName n).map sanitizeChar = isolatedName n := by
  rw [isolatedName, List.map_append, List.map_append, map_sanitize_natChars]
  rw [show ("pagina_".toList).map sanitizeChar = "pagina_".toList from by decide]
  rw [show ("_sem_identificador".toList).map sanitizeChar = "_sem_identificador".toList
    from by decide]

/-! ## Lookup lemmas for the groups dict -/

theorem lookupKey_addPage_of_ne {k0 k : List Char} (h : k ≠ k0)
    (gs : Groups) (ident : Identifier) (i : Nat) :
    lookupKey k0 (addPage gs k ident i) = lookupKey k0 gs := by
  induction gs with
  | nil => simp [addPage, lookupKey, h]
  | cons kg rest ih =>
    obtain ⟨k', g⟩ := kg
    by_cases hk : k' = k
    · subst hk
      rw [addPage, if_pos rfl, lookupKey, lookupKey, if_neg (fun heq => h heq)]
      rw [if_neg (fun hcontra => h hcontra)]
    · rw [addPage, if_neg hk, lookupKey, lookupKey]
      by_cases hq : k' = k0
      · rw [if_pos hq, if_pos hq]
      · rw [if_neg hq, if_neg hq, ih]

theorem lookupKey_addPage_self (gs : Groups) (k : List Char) (ident : Identifier) (i : Nat) :
    ∃ g, lookupKey k (addPage gs k ident i) = some g ∧ i ∈ g.indices := by
  induction gs with
  | nil => exact ⟨⟨ident, [i]⟩, by simp [addPage, lookupKey], by simp⟩
  | cons kg rest ih =>
    obtain ⟨k', g⟩ := kg
    by_cases hk : k' = k
    · subst hk
      refine ⟨⟨g.identifier, g.indices ++ [i]⟩, ?_, by simp⟩
      rw [addPage, if_pos rfl, lookupKey, if_pos rfl]
    · obtain ⟨g1, hg1, hi1⟩ := ih
      refine ⟨g1, ?_, hi1⟩
      rw [addPage, if_neg hk, lookupKey, if_neg hk]
      exact hg1

/-- New pages only ever extend existing groups: a stored index survives. -/
theorem lookupKey_addPage_mem {gs : Groups} {k : List Char} {g0 : PageGroup} {x : Nat}
    (h : lookupKey k gs = some g0) (hx : x ∈ g0.indices)
    (k1 : List Char) (ident : Identifier) (i : Nat) :
    ∃ g1, lookupKey k (addPage gs k1 ident i) = some g1 ∧ x ∈ g1.indices := by
  by_cases hk : k1 = k
  · subst hk
    induction gs with
    | nil => simp [lookupKey] at h
    | cons kg rest ih =>
      obtain ⟨k', g⟩ := kg
      by_cases h2 : k' = k1
      · subst h2
        rw [lookupKey, if_pos rfl] at h
        have hgg : g = g0 := Option.some_inj.mp h
        refine ⟨⟨g.identifier, g.indices ++ [i]⟩, ?_, ?_⟩
        · rw [addPage, if_pos rfl, lookupKey, if_pos rfl]
        · rw [hgg]
          exact List.mem_append_left _ hx
      · rw [lookupKey, if_neg h2] at h
        obtain ⟨g1, hg1, hx1⟩ := ih h
        refine ⟨g1, ?_, hx1⟩
        rw [addPage, if_neg h2, lookupKey, if_neg h2]
        exact hg1
  · exact ⟨g0, by rw [lookupKey_addPage_of_ne hk]; exact h, hx⟩

/-- A stored index survives the rest of the scan. -/
theorem loop_lookup_mem (pages : List (List Char)) :
    ∀ (i : Nat) (ln : Option (List Char)) (li : Option Identifier) (gs : Groups)
      (k : List Char) (g0 : PageGroup) (x : Nat),
    lookupKey k gs = some g0 → x ∈ g0.indices →
    ∃ g, lookupKey k (PDFProcessor.group_pages_loop pages i ln li gs) = some g ∧
      x ∈ g.indices := by
  induction pages with
  | nil =>
    intro i ln li gs k g0 x h hx
    exact ⟨g0, by simpa [PDFProcessor.group_pages_loop] using h, hx⟩
  | cons t rest ih =>
    intro i ln li gs k g0 x h hx
    rw [PDFProcessor.group_pages_loop]
    obtain ⟨g1, hg1, hx1⟩ := lookupKey_addPage_mem h hx _ _ i
    exact ih (i + 1) _ _ _ k g1 x hg1 hx1

/-! ## C4: carry-over of the last identifier -/

theorem truthy_valor_ne_nil {idr : Identifier} (h : idr.truthy = true) :
    idr.valor ≠ [] := by
  simpa [Identifier.truthy, List.isEmpty_iff] using h

theorem nome_arquivo_ne_nil {idr : Identifier} (h : idr.valor ≠ []) :
    idr.nome_arquivo ≠ [] := by
  simpa [Identifier.nome_arquivo] using h

/-- The carry guard `last_name and last_id` accepts the state left by a
non-empty identifier. -/
theorem carryOk_some {idr : Identifier} (h : idr.valor ≠ []) :
    carryOk (some idr.nome_arquivo) (some idr) = true := by
  rw [carryOk, Bool.and_eq_true]
  constructor
  · simpa [List.isEmpty_iff] using nome_arquivo_ne_nil h
  · simpa [List.isEmpty_iff] using h

theorem carryOk_none_right (ln : Option (List Char)) : carryOk ln none = false := by
  cases ln <;> rfl

/-- While every page extracts empty, the scan keeps assigning pages to
the carried identifier's group. -/
theorem loop_carry :
    ∀ (pages : List (List Char)) (idx : Nat) (gs : Groups) (idr : Identifier),
    idr.valor ≠ [] →
    ∀ (i' : Nat), i' < pages.length →
    (∀ k, k ≤ i' → (ExtractorIdentifier.extract (pages.getD k [])).truthy = false) →
    ∃ g, lookupKey idr.nome_arquivo
        (PDFProcessor.group_pages_loop pages idx (some idr.nome_arquivo) (some idr) gs) =
      some g ∧ (idx + i') ∈ g.indices := by
  intro pages
  induction pages with
  | nil =>
    intro idx gs idr hv i' hi
    exact absurd hi (by simp)
  | cons t rest ih =>
    intro idx gs idr hv i' hi hemp
    have ht : (ExtractorIdentifier.extract t).truthy = false := by
      have := hemp 0 (Nat.zero_le _)
      simpa using this
    have hc : carryOk (some idr.nome_arquivo) (some idr) = true := carryOk_some hv
    rw [PDFProcessor.group_pages_loop]
    simp only [ht, Bool.false_eq_true, if_false, hc, if_true, carried]
    cases i' with
    | zero =>
      obtain ⟨g', hg', hmem⟩ := lookupKey_addPage_self gs idr.nome_arquivo idr idx
      obtain ⟨g, hg, hx⟩ :=
        loop_lookup_mem rest (idx + 1) (some idr.nome_arquivo) (some idr) _
          idr.nome_arquivo g' idx hg' hmem
      exact ⟨g, hg, by simpa using hx⟩
    | succ i'' =>
      have hi2 : i'' < rest.length := by
        simp only [List.length_cons] at hi
        omega
      have hemp2 : ∀ k, k ≤ i'' →
          (ExtractorIdentifier.extract (rest.getD k [])).truthy = false := by
        intro k hk
        have := hemp (k + 1) (Nat.succ_le_succ hk)
        simpa using this
      obtain ⟨g, hg, hx⟩ :=
        ih (idx + 1) (addPage gs idr.nome_arquivo idr idx) idr hv i'' hi2 hemp2
      refine ⟨g, hg, ?_⟩
      have harith : idx + 1 + i'' = idx + (i'' + 1) := by omega
      rwa [harith] at hx

/-- From the last page that extracts non-empty up to a later page where
everything in between (and the page itself) extracts empty, the later
page's index lands in the group keyed by that last identifier. -/
theorem loop_last_truthy :
    ∀ (pages : List (List Char)) (idx : Nat) (ln : Option (List Char))
      (li : Option Identifier) (gs : Groups) (j i : Nat),
    j < pages.length → i < pages.length → j < i →
    (ExtractorIdentifier.extract (pages.getD j [])).truthy = true →
    (∀ k, j < k → k ≤ i →
      (ExtractorIdentifier.extract (pages.getD k [])).truthy = false) →
    ∃ g, lookupKey (ExtractorIdentifier.extract (pages.getD j [])).nome_arquivo
        (PDFProcessor.group_pages_loop pages idx ln li gs) = some g ∧
      (idx + i) ∈ g.indices := by
  intro pages
  induction pages with
  | nil =>
    intro idx ln li gs j i hj
    exact absurd hj (by simp)
  | cons t rest ih =>
    intro idx ln li gs j i hj hi hji htj hbet
    obtain ⟨i'', rfl⟩ : ∃ i'', i = i'' + 1 := ⟨i - 1, by omega⟩
    have hi2 : i'' < rest.length := by
      simp only [List.length_cons] at hi
      omega
    cases j with
    | zero =>
      have ht : (ExtractorIdentifier.extract t).truthy = true := by simpa using htj
      rw [PDFProcessor.group_pages_loop]
      simp only [ht, if_true]
      have hv : (ExtractorIdentifier.extract t).valor ≠ [] := truthy_valor_ne_nil ht
      have hemp2 : ∀ k, k ≤ i'' →
          (ExtractorIdentifier.extract (rest.getD k [])).truthy = false := by
        intro k hk
        have := hbet (k + 1) (Nat.succ_pos _) (by omega)
        simpa using this
      obtain ⟨g, hg, hx⟩ :=
        loop_carry rest (idx + 1)
          (addPage gs (ExtractorIdentifier.extract t).nome_arquivo
            (ExtractorIdentifier.extract t) idx)
          (ExtractorIdentifier.extract t) hv i'' hi2 hemp2
      refine ⟨g, by simpa using hg, ?_⟩
      have harith : idx + 1 + i'' = idx + (i'' + 1) := by omega
      rwa [harith] at hx
    | succ j' =>
      have hj2 : j' < rest.length := by
        simp only [List.length_cons] at hj
        omega
      have hji2 : j' < i'' := by omega
      have htj2 : (ExtractorIdentifier.extract (rest.getD j' [])).truthy = true := by
        simpa using htj
      have hbet2 : ∀ k, j' < k → k ≤ i'' →
          (ExtractorIdentifier.extract (rest.getD k [])).truthy = false := by
        intro k hk1 hk2
        have := hbet (k + 1) (by omega) (by omega)
        simpa using this
      rw [PDFProcessor.group_pages_loop]
      cases ht : (ExtractorIdentifier.extract t).truthy with
      | true =>
        simp only [ht, if_true]
        obtain ⟨g, hg, hx⟩ :=
          ih (idx + 1) (some (ExtractorIdentifier.extract t).nome_arquivo)
            (some (ExtractorIdentifier.extract t))
            (addPage gs (ExtractorIdentifier.extract t).nome_arquivo
              (ExtractorIdentifier.extract t) idx)
            j' i'' hj2 hi2 hji2 htj2 hbet2
        refine ⟨g, by simpa using hg, ?_⟩
        have harith : idx + 1 + i'' = idx + (i'' + 1) := by omega
        rwa [harith] at hx
      | false =>
        cases hc : carryOk ln li with
        | true =>
          simp only [ht, Bool.false_eq_true, if_false, hc, if_true]
          obtain ⟨g, hg, hx⟩ :=
            ih (idx + 1) ln li
              (addPage gs (carried li).nome_arquivo (carried li) idx)
              j' i'' hj2 hi2 hji2 htj2 hbet2
          refine ⟨g, by simpa using hg, ?_⟩
          have harith : idx + 1 + i'' = idx + (i'' + 1) := by omega
          rwa [harith] at hx
        | false =>
          simp only [ht, Bool.false_eq_true, if_false, hc, if_false]
          obtain ⟨g, hg, hx⟩ :=
            ih (idx + 1) ln li
              (addPage gs
                (Identifier.mk (isolatedName (idx + 1)) "---".toList).nome_arquivo
                (Identifier.mk (isolatedName (idx + 1)) "---".toList) idx)
              j' i'' hj2 hi2 hji2 htj2 hbet2
          refine ⟨g, by simpa using hg, ?_⟩
          have harith : idx + 1 + i'' = idx + (i'' + 1) := by omega
          rwa [harith] at hx

/-! ## C7: isolated pages -/

/-- The synthesized isolated identifier sanitizes to itself. -/
theorem iso_ident_key (n : Nat) :
    (Identifier.mk (isolatedName n) "---".toList).nome_arquivo = isolatedName n := by
  rw [Identifier.nome_arquivo]
  exact sanitize_isolatedName n

/-- Adding under a key absent from the dict appends a fresh singleton. -/
theorem lookupKey_addPage_new {gs : Groups} {k : List Char}
    (h : lookupKey k gs = none) (ident : Identifier) (i : Nat) :
    lookupKey k (addPage gs k ident i) = some ⟨ident, [i]⟩ := by
  induction gs with
  | nil => simp [addPage, lookupKey]
  | cons kg rest ih =>
    obtain ⟨k', g⟩ := kg
    rw [lookupKey] at h
    by_cases hk : k' = k
    · rw [if_pos hk] at h
      exact absurd h (by simp)
    · rw [if_neg hk] at h
      rw [addPage, if_neg hk, lookupKey, if_neg hk]
      exact ih h

/-- Once the scan index has passed `k0`, the isolated key of page `k0`
can never be touched again: keys of extracted or carried identifiers are
formatted values, and later isolated keys bear later page numbers. -/
theorem loop_lookup_isolated_frozen :
    ∀ (pages : List (List Char)) (idx : Nat) (ln : Option (List Char))
      (li : Option Identifier) (gs : Groups) (k0 : Nat),
    k0 ≤ idx →
    (∀ idr, li = some idr →
      (∃ raw : List Char, raw.length = 14 ∧
        idr.valor = ExtractorIdentifier.fmt_cnpj raw) ∨
      (∃ raw : List Char, raw.length = 11 ∧
        idr.valor = ExtractorIdentifier.fmt_cpf raw)) →
    lookupKey (isolatedName k0) (PDFProcessor.group_pages_loop pages idx ln li gs) =
      lookupKey (isolatedName k0) gs := by
  intro pages
  induction pages with
  | nil =>
    intro idx ln li gs k0 hk0 hli
    rfl
  | cons t rest ih =>
    intro idx ln li gs k0 hk0 hli
    rw [PDFProcessor.group_pages_loop]
    cases ht : (ExtractorIdentifier.extract t).truthy with
    | true =>
      simp only [ht, if_true]
      rw [ih (idx + 1) _ _ _ k0 (by omega) ?shape]
      case shape =>
        intro idr hidr
        have hide : idr = ExtractorIdentifier.extract t := by
          injection hidr with hh
          exact hh.symm
        subst hide
        exact extract_truthy_shape ht
      exact lookupKey_addPage_of_ne (extract_key_ne_isolatedName ht k0) gs _ idx
    | false =>
      cases hc : carryOk ln li with
      | true =>
        simp only [ht, Bool.false_eq_true, if_false, hc, if_true]
        cases li with
        | none =>
          rw [carryOk_none_right] at hc
          exact absurd hc (by simp)
        | some idr =>
          have hshape := hli idr rfl
          simp only [carried]
          rw [ih (idx + 1) ln (some idr) _ k0 (by omega) hli]
          exact lookupKey_addPage_of_ne (shape_key_ne_isolatedName hshape k0) gs _ idx
      | false =>
        simp only [ht, Bool.false_eq_true, if_false, hc, if_false]
        rw [ih (idx + 1) ln li _ k0 (by omega) hli]
        rw [iso_ident_key]
        refine lookupKey_addPage_of_ne ?_ gs _ idx
        intro heq
        have := isolatedName_inj heq
        omega

/-- A leading run of pages without identifiers puts each such page into
its own singleton isolated group. -/
theorem loop_isolated_entry :
    ∀ (pages : List (List Char)) (i idx : Nat) (gs : Groups),
    i < pages.length →
    (∀ j, j ≤ i → (ExtractorIdentifier.extract (pages.getD j [])).truthy = false) →
    lookupKey (isolatedName (idx + i + 1)) gs = none →
    lookupKey (isolatedName (idx + i + 1))
        (PDFProcessor.group_pages_loop pages idx none none gs) =
      some ⟨⟨isolatedName (idx + i + 1), "---".toList⟩, [idx + i]⟩ := by
  intro pages
  induction pages with
  | nil =>
    intro i idx gs hi
    exact absurd hi (by simp)
  | cons t rest ih =>
    intro i idx gs hi hall hnone
    have ht : (ExtractorIdentifier.extract t).truthy = false := by
      simpa using hall 0 (Nat.zero_le _)
    rw [PDFProcessor.group_pages_loop]
    simp only [ht, Bool.false_eq_true, if_false, carryOk_none_right, iso_ident_key]
    cases i with
    | zero =>
      simp only [Nat.add_zero] at hnone ⊢
      rw [loop_lookup_isolated_frozen rest (idx + 1) none none _ (idx + 1)
        (Nat.le_refl _) (by intro idr hidr; exact absurd hidr (by simp))]
      exact lookupKey_addPage_new hnone _ idx
    | succ i'' =>
      have hi2 : i'' < rest.length := by
        simp only [List.length_cons] at hi
        omega
      have hall2 : ∀ j, j ≤ i'' →
          (ExtractorIdentifier.extract (rest.getD j [])).truthy = false := by
        intro j hj
        simpa using hall (j + 1) (Nat.succ_le_succ hj)
      have hne : isolatedName (idx + 1) ≠ isolatedName (idx + 1 + i'' + 1) := by
        intro heq
        have := isolatedName_inj heq
        omega
      have hnone2 : lookupKey (isolatedName (idx + 1 + i'' + 1))
          (addPage gs (isolatedName (idx + 1))
            ⟨isolatedName (idx + 1), "---".toList⟩ idx) = none := by
        rw [lookupKey_addPage_of_ne hne]
        have harith : idx + 1 + i'' + 1 = idx + (i'' + 1) + 1 := by omega
        rw [harith]
        exact hnone
      have hrec := ih i'' (idx + 1) _ hi2 hall2 hnone2
      have h1 : idx + (i'' + 1) + 1 = idx + 1 + i'' + 1 := by omega
      have h2 : idx + (i'' + 1) = idx + 1 + i'' := by omega
      rw [h1, h2]
      exact hrec

/-- C7: a page with no identifier and no carry becomes its own singleton
group keyed by its 1-based page number, holding exactly its own index;
it never becomes the carry: instantiating the theorem at a later page
that extracts empty (with still no identified page before it) shows that
page likewise isolated in its own singleton group, not attached to the
earlier synthesized one. -/
theorem isolated_page_group (pages : List (List Char)) (i : Nat)
    (hi : i < pages.length)
    (hall : ∀ j, j ≤ i →
      (ExtractorIdentifier.extract (pages.getD j [])).truthy = false) :
    lookupKey (isolatedName (i + 1)) (PDFProcessor.group_pages pages) =
      some ⟨⟨isolatedName (i + 1), "---".toList⟩, [i]⟩ := by
  have h := loop_isolated_entry pages i 0 [] hi hall rfl
  simpa [PDFProcessor.group_pages] using h

/-- Witness for `isolated_page_group`: in a two-page document with no
identifiers at all, the second page is isolated on its own (it did not
inherit the first page's synthesized group). -/
theorem isolated_page_group_witness :
    lookupKey (isolatedName 2) (PDFProcessor.group_pages ["x".toList, "y".toList]) =
      some ⟨⟨isolatedName 2, "---".toList⟩, [1]⟩ :=
  isolated_page_group ["x".toList, "y".toList] 1 (by decide) (by decide)

/-- C4: a page that extracts empty while an earlier page extracted a
non-empty identifier is assigned to the group of the most recently
extracted non-empty identifier (the last page `j` before it that
extracted non-empty); and in particular a 3-page document with
identifier A on page 1, none on page 2, identifier B on page 3 groups as
exactly `{A: [0, 1], B: [2]}`. -/
theorem carry_over_rule :
    (∀ (pages : List (List Char)) (j i : Nat),
      j < pages.length → i < pages.length → j < i →
      (ExtractorIdentifier.extract (pages.getD j [])).truthy = true →
      (∀ k, j < k → k ≤ i →
        (ExtractorIdentifier.extract (pages.getD k [])).truthy = false) →
      ∃ g, lookupKey (ExtractorIdentifier.extract (pages.getD j [])).nome_arquivo
          (PDFProcessor.group_pages pages) = some g ∧ i ∈ g.indices) ∧
    (∀ t1 t2 t3 : List Char,
      (ExtractorIdentifier.extract t1).truthy = true →
      (ExtractorIdentifier.extract t2).truthy = false →
      (ExtractorIdentifier.extract t3).truthy = true →
      (ExtractorIdentifier.extract t1).nome_arquivo ≠
        (ExtractorIdentifier.extract t3).nome_arquivo →
      PDFProcessor.group_pages [t1, t2, t3] =
        [((ExtractorIdentifier.extract t1).nome_arquivo,
            ⟨ExtractorIdentifier.extract t1, [0, 1]⟩),
         ((ExtractorIdentifier.extract t3).nome_arquivo,
            ⟨ExtractorIdentifier.extract t3, [2]⟩)]) := by
  constructor
  · intro pages j i hj hi hji htj hbet
    have h := loop_last_truthy pages 0 none none [] j i hj hi hji htj hbet
    simpa [PDFProcessor.group_pages] using h
  · intro t1 t2 t3 h1 h2 h3 hne
    have hv1 : (ExtractorIdentifier.extract t1).valor ≠ [] := truthy_valor_ne_nil h1
    have hc : carryOk (some (ExtractorIdentifier.extract t1).nome_arquivo)
        (some (ExtractorIdentifier.extract t1)) = true := carryOk_some hv1
    rw [PDFProcessor.group_pages, PDFProcessor.group_pages_loop]
    simp only [h1, if_true]
    rw [PDFProcessor.group_pages_loop]
    simp only [h2, Bool.false_eq_true, if_false, hc, if_true, carried]
    rw [PDFProcessor.group_pages_loop]
    simp only [h3, if_true]
    rw [PDFProcessor.group_pages_loop]
    simp [addPage, hne, Ne.symm hne]

/-- Witness for `carry_over_rule` at a concrete 3-page document: the
full group map and the membership of the carried page. -/
theorem carry_over_rule_witness :
    PDFProcessor.group_pages
        ["111.444.777-35".toList, "x".toList, "11.222.333/0001-81".toList] =
      [("111.444.777-35".toList,
          ⟨⟨"111.444.777-35".toList, "CPF".toList⟩, [0, 1]⟩),
       ("11.222.333_0001-81".toList,
          ⟨⟨"11.222.333/0001-81".toList, "CNPJ".toList⟩, [2]⟩)] ∧
    (∃ g, lookupKey "111.444.777-35".toList
        (PDFProcessor.group_pages
          ["111.444.777-35".toList, "x".toList, "11.222.333/0001-81".toList]) =
      some g ∧ 1 ∈ g.indices) := by
  constructor
  · have h := carry_over_rule.2 "111.444.777-35".toList "x".toList
      "11.222.333/0001-81".toList (by decide) (by decide) (by decide) (by decide)
    rw [h]
    decide
  · have h := carry_over_rule.1
      ["111.444.777-35".toList, "x".toList, "11.222.333/0001-81".toList] 0 1
      (by decide) (by decide) (by decide) (by decide)
      (by
        intro k hk1 hk2
        have hk : k = 1 := by omega
        subst hk
        decide)
    simpa using h

/-! ## C6: the leading unresolved page -/

/-- C6 (counterexample to the spec's literal key and file names): on a
two-page document whose first page has no identifier, the code keys the
leading unresolved page `pagina_1_sem_identificador` — not
`page_1_no_identifier` — and writes `pagina_1_sem_identificador.pdf`,
not `page_1_no_identifier.pdf`. -/
theorem unresolved_key_counterexample :
    ((PDFProcessor.group_pages ["x".toList, "111.444.777-35".toList]).map Prod.fst =
      ["pagina_1_sem_identificador".toList, "111.444.777-35".toList]) ∧
    ("page_1_no_identifier".toList ∉
      (PDFProcessor.group_pages ["x".toList, "111.444.777-35".toList]).map Prod.fst) ∧
    (PDFProcessor.write_groups "output".toList
        (PDFProcessor.group_pages ["x".toList, "111.444.777-35".toList]) =
      ["output/pagina_1_sem_identificador.pdf".toList,
       "output/111.444.777-35.pdf".toList]) ∧
    ("output/page_1_no_identifier.pdf".toList ∉
      PDFProcessor.write_groups "output".toList
        (PDFProcessor.group_pages ["x".toList, "111.444.777-35".toList])) := by
  decide

/-- C6 (amended): a 2-page document with no identifier on page 1 and
identifier A on page 2 produces exactly two groups in order — the
singleton `pagina_1_sem_identificador` group holding index 0, then A's
group holding index 1 — and the output files are
`<dir>/pagina_<n>_sem_identificador.pdf` for the unresolved page and
`<dir>/<A-key>.pdf` for A's. -/
theorem leading_unresolved_page (output_dir t1 t2 : List Char)
    (h1 : (ExtractorIdentifier.extract t1).truthy = false)
    (h2 : (ExtractorIdentifier.extract t2).truthy = true) :
    PDFProcessor.group_pages [t1, t2] =
      [(isolatedName 1, ⟨⟨isolatedName 1, "---".toList⟩, [0]⟩),
       ((ExtractorIdentifier.extract t2).nome_arquivo,
          ⟨ExtractorIdentifier.extract t2, [1]⟩)] ∧
    PDFProcessor.write_groups output_dir (PDFProcessor.group_pages [t1, t2]) =
      [output_dir ++ '/' :: (isolatedName 1 ++ ".pdf".toList),
       output_dir ++ '/' ::
        ((ExtractorIdentifier.extract t2).nome_arquivo ++ ".pdf".toList)] := by
  have hne : (ExtractorIdentifier.extract t2).nome_arquivo ≠ isolatedName 1 :=
    extract_key_ne_isolatedName h2 1
  have hmain : PDFProcessor.group_pages [t1, t2] =
      [(isolatedName 1, ⟨⟨isolatedName 1, "---".toList⟩, [0]⟩),
       ((ExtractorIdentifier.extract t2).nome_arquivo,
          ⟨ExtractorIdentifier.extract t2, [1]⟩)] := by
    rw [PDFProcessor.group_pages, PDFProcessor.group_pages_loop]
    simp only [h1, Bool.false_eq_true, if_false, carryOk_none_right, iso_ident_key,
      Nat.zero_add]
    rw [PDFProcessor.group_pages_loop]
    simp only [h2, if_true]
    rw [PDFProcessor.group_pages_loop]
    simp [addPage, hne, Ne.symm hne]
  refine ⟨hmain, ?_⟩
  rw [hmain]
  simp [PDFProcessor.write_groups]

/-- Witness for `leading_unresolved_page` at a concrete document. -/
theorem leading_unresolved_page_witness :
    PDFProcessor.group_pages ["x".toList, "111.444.777-35".toList] =
      [("pagina_1_sem_identificador".toList,
          ⟨⟨"pagina_1_sem_identificador".toList, "---".toList⟩, [0]⟩),
       ("111.444.777-35".toList,
          ⟨⟨"111.444.777-35".toList, "CPF".toList⟩, [1]⟩)] := by
  have h := (leading_unresolved_page "output".toList "x".toList
    "111.444.777-35".toList (by decide) (by decide)).1
  rw [h]
  decide

end Informe
